import Mathlib

/-!
A shallow embedding of aria2's `DefaultPieceStorage` (src/DefaultPieceStorage.cc)
together with the collaborator state it owns: the `BitfieldMan` bitmaps
(have / in-use / filter), the in-flight `Piece` deque (`_usedPieces`), the
`PieceStatMan` availability counters, and the advertisement deque (`_haves`).

`DefaultPieceStorage.cc` is the authoritative source.  The collaborators
`BitfieldMan`, `Piece`, `PieceStatMan` and the `Timer`/`HaveEntry` types are
declared elsewhere in the repository; their operations are modelled from the
specification (sections 3, 4.1, 4.2, 4.4, 4.6) as noted on each definition.

Machine integers (`size_t`, `uint64_t`) are modelled as `Nat`; the quantities
involved (piece counts, byte lengths) never approach overflow in the
behaviours verified here.  `SharedHandle<Piece>` nullability is modelled with
`Option Piece`.  The logger and disk adaptor are omitted: no verified claim
observes them.  `DownloadContext::resetDownloadStopTime()` is recorded as a
boolean flag `stopTimeReset` on the state.
-/

namespace Aria2

/-- Modelled from the spec (section 3): block size constant, `Piece::BLOCK_LENGTH`
(16 KiB). -/
def BLOCK_LENGTH : Nat := 16384

/-- Modelled from the spec (section 4.2): a `Piece` is an index, its byte
length, and a per-block completion bitmap (`Piece` is not under src/). -/
structure Piece where
  index : Nat
  length : Nat
  blocks : List Bool
deriving Repr, DecidableEq

/-- Modelled from the spec (section 4.2): `Piece(index, length)` constructs a
piece with an empty block bitmap of `⌈length / BLOCK_LENGTH⌉` bits. -/
def Piece.make (index length : Nat) : Piece :=
  ⟨index, length, List.replicate ((length + BLOCK_LENGTH - 1) / BLOCK_LENGTH) false⟩

/-- Modelled from the spec (section 4.2): number of complete blocks. -/
def Piece.countCompleteBlock (p : Piece) : Nat := p.blocks.count true

/-- Modelled from the spec (section 3): completed byte length of a piece,
`popcount(blocks) × block-size`, capped at the piece length. -/
def Piece.getCompletedLength (p : Piece) : Nat :=
  min (p.countCompleteBlock * BLOCK_LENGTH) p.length

/-- Modelled from the spec (section 4.2): mark all blocks complete. -/
def Piece.setAllBlock (p : Piece) : Piece :=
  { p with blocks := p.blocks.map (fun _ => true) }

/-- Modelled from the spec (section 4.2): set block bit `b`. -/
def Piece.completeBlock (p : Piece) (b : Nat) : Piece :=
  { p with blocks := p.blocks.set b true }

/-- Helper for the `for(size_t i = 0; i < r; ++i) p->completeBlock(i);` loop in
`DefaultPieceStorage::markPiecesDone`. -/
def Piece.completeBlocksUpTo (p : Piece) (r : Nat) : Piece :=
  (List.range r).foldl Piece.completeBlock p

/-- Modelled from the spec (section 4.6): an advertisement-queue entry
`HaveEntry { ownerId (cuid), piece index, registered wallclock time }`.
Timestamps are modelled as `Nat` instants; `Timer` comparison operators are the
usual strict orders on instants. -/
structure HaveEntry where
  cuid : Nat
  index : Nat
  registeredTime : Nat
deriving Repr, DecidableEq

/-- State of a `DefaultPieceStorage` object: the `BitfieldMan` it owns
(piece length, total length, the three bitmaps), `_usedPieces` (the in-flight
piece deque, kept sorted by index), the `PieceStatMan` counters, the `_haves`
advertisement deque (front = head of the list), the recorded
`resetDownloadStopTime` flag of the download context, and `_endGamePieceNum`.
Bitmaps are total boolean functions on `Nat`; only indices below the piece
count are meaningful and all `BitfieldMan` operations guard on that bound. -/
structure DPS where
  pieceLength : Nat
  totalLength : Nat
  haveBit : Nat → Bool
  useBit : Nat → Bool
  filterEnabled : Bool
  filterBit : Nat → Bool
  usedPieces : List Piece
  counts : Nat → Nat
  haves : List HaveEntry
  stopTimeReset : Bool
  endGamePieceNum : Nat

/-- Modelled from the spec (section 4.1): number of pieces
(`BitfieldMan::countBlock`), `⌈totalLength / pieceLength⌉`. -/
def countBlock (s : DPS) : Nat :=
  s.totalLength / s.pieceLength +
    (if s.totalLength % s.pieceLength = 0 then 0 else 1)

/-- Modelled from the spec (sections 3, 4.1): `BitfieldMan::getBlockLength(i)`,
the byte length of piece `i`; the last piece may be short. -/
def blockLength (s : DPS) (i : Nat) : Nat :=
  if i + 1 = countBlock s then s.totalLength - s.pieceLength * i
  else s.pieceLength

/-- Modelled from the spec (section 4.1): `BitfieldMan::isBitSet`. -/
def isBitSet (s : DPS) (i : Nat) : Bool :=
  decide (i < countBlock s) && s.haveBit i

/-- Modelled from the spec (section 4.1): `BitfieldMan::isUseBitSet`. -/
def isUseBitSet (s : DPS) (i : Nat) : Bool :=
  decide (i < countBlock s) && s.useBit i

/-- Modelled from the spec (section 4.1): `BitfieldMan::setBit`. -/
def setBit (s : DPS) (i : Nat) : DPS :=
  if i < countBlock s then
    { s with haveBit := fun j => if j = i then true else s.haveBit j }
  else s

/-- Modelled from the spec (section 4.1): `BitfieldMan::unsetBit`. -/
def unsetBit (s : DPS) (i : Nat) : DPS :=
  if i < countBlock s then
    { s with haveBit := fun j => if j = i then false else s.haveBit j }
  else s

/-- Modelled from the spec (section 4.1): `BitfieldMan::setUseBit`. -/
def setUseBit (s : DPS) (i : Nat) : DPS :=
  if i < countBlock s then
    { s with useBit := fun j => if j = i then true else s.useBit j }
  else s

/-- Modelled from the spec (section 4.1): `BitfieldMan::unsetUseBit`. -/
def unsetUseBit (s : DPS) (i : Nat) : DPS :=
  if i < countBlock s then
    { s with useBit := fun j => if j = i then false else s.useBit j }
  else s

/-- Modelled from the spec (section 4.1): `BitfieldMan::setAllBit` sets all `N`
piece bits. -/
def setAllBit (s : DPS) : DPS :=
  { s with haveBit := fun j => decide (j < countBlock s) }

/-- Modelled from the spec (section 4.1): `BitfieldMan::clearAllBit`. -/
def clearAllBit (s : DPS) : DPS :=
  { s with haveBit := fun _ => false }

/-- Modelled from the spec (section 4.1): `BitfieldMan::setBitRange(lo, hi)`
sets the inclusive range of have bits. -/
def setBitRange (s : DPS) (lo hi : Nat) : DPS :=
  { s with haveBit := fun j =>
      if lo ≤ j ∧ j ≤ hi ∧ j < countBlock s then true else s.haveBit j }

/-- Modelled from the spec (section 4.1): a piece is interesting iff the filter
is disabled or its filter bit is set. -/
def interesting (s : DPS) (i : Nat) : Bool :=
  !s.filterEnabled || s.filterBit i

/-- Modelled from the spec (section 4.1): `BitfieldMan::countMissingBlock`,
the number of pieces with `have[i] = 0`, restricted to filtered pieces when the
filter is enabled. -/
def countMissingBlock (s : DPS) : Nat :=
  (List.range (countBlock s)).countP (fun i => interesting s i && !s.haveBit i)

/-- Modelled from the spec (section 4.1): `BitfieldMan::isAllBitSet`. -/
def isAllBitSet (s : DPS) : Bool :=
  (List.range (countBlock s)).all (fun i => s.haveBit i)

/-- Modelled from the spec (sections 4.1, 4.7): `BitfieldMan::isFilteredAllBitSet`,
all filtered pieces have their have bit set (all pieces when the filter is
disabled). -/
def isFilteredAllBitSet (s : DPS) : Bool :=
  if s.filterEnabled then
    (List.range (countBlock s)).all (fun i => !s.filterBit i || s.haveBit i)
  else isAllBitSet s

/-- Modelled from the spec (sections 4.1, 8): `BitfieldMan::getCompletedLength`,
the sum of the byte lengths of the have pieces. -/
def bfCompletedLength (s : DPS) : Nat :=
  (((List.range (countBlock s)).filter (fun i => s.haveBit i)).map
    (blockLength s)).sum

/-- Modelled from the spec (section 4.1): `BitfieldMan::getFilteredCompletedLength`,
the sum of the byte lengths of the have pieces that pass the filter. -/
def bfFilteredCompletedLength (s : DPS) : Nat :=
  if s.filterEnabled then
    (((List.range (countBlock s)).filter
      (fun i => s.filterBit i && s.haveBit i)).map (blockLength s)).sum
  else bfCompletedLength s

/-- Modelled from the spec (section 4.1): `BitfieldMan::getFilteredTotalLength`,
the sum of the byte lengths of the filtered pieces. -/
def bfFilteredTotalLength (s : DPS) : Nat :=
  if s.filterEnabled then
    (((List.range (countBlock s)).filter (fun i => s.filterBit i)).map
      (blockLength s)).sum
  else s.totalLength

/-- Modelled from the spec (section 4.1): `BitfieldMan::getFirstMissingUnusedIndex`,
the smallest missing, unused, interesting index. -/
def getFirstMissingUnusedIndex (s : DPS) : Option Nat :=
  (List.range (countBlock s)).find?
    (fun i => !s.haveBit i && !s.useBit i && interesting s i)

/-- Modelled from the spec (section 4.1): `BitfieldMan::getAllMissingIndexes`.
Builds the candidate bitmap `peer has i ∧ ¬have[i] ∧ interesting i` and
reports whether any candidate exists.  Used by `getMissingPieceIndex` in
end-game mode. -/
def getAllMissingIndexes (s : DPS) (peer : Nat → Bool) : Bool × (Nat → Bool) :=
  let m : Nat → Bool := fun i =>
    decide (i < countBlock s) && peer i && !s.haveBit i && interesting s i
  ((List.range (countBlock s)).any m, m)

/-- Modelled from the spec (section 4.1): `BitfieldMan::getAllMissingUnusedIndexes`,
as `getAllMissingIndexes` but additionally requiring `¬in-use[i]`. -/
def getAllMissingUnusedIndexes (s : DPS) (peer : Nat → Bool) :
    Bool × (Nat → Bool) :=
  let m : Nat → Bool := fun i =>
    decide (i < countBlock s) && peer i && !s.haveBit i && !s.useBit i &&
      interesting s i
  ((List.range (countBlock s)).any m, m)

/-- Modelled from the spec (section 4.4): `PieceStatMan::addPieceStats(index)`,
`counts[index] += 1`. -/
def addPieceStats (s : DPS) (i : Nat) : DPS :=
  { s with counts := fun j => if j = i then s.counts j + 1 else s.counts j }

/-- Source: `std::lower_bound` over the index-sorted `_usedPieces` deque
followed by the equality test, as in `DefaultPieceStorage::findUsedPiece` and
`deleteUsedPiece`: skip entries with smaller index, then test the first entry
whose index is not smaller. -/
def lowerBoundFind (i : Nat) : List Piece → Option Piece
  | [] => none
  | q :: qs =>
    if q.index < i then lowerBoundFind i qs
    else if q.index = i then some q
    else none

/-- Source: `DefaultPieceStorage::findUsedPiece(index)` — look up the in-flight
piece with the given index via `lower_bound`, null when absent. -/
def findUsedPiece (s : DPS) (i : Nat) : Option Piece :=
  lowerBoundFind i s.usedPieces

/-- Source: the `std::lower_bound` + `insert` of
`DefaultPieceStorage::addUsedPiece` — insert before the first entry whose
index is not smaller. -/
def insertSorted (p : Piece) : List Piece → List Piece
  | [] => [p]
  | q :: qs =>
    if q.index < p.index then q :: insertSorted p qs
    else p :: q :: qs

/-- Source: `DefaultPieceStorage::addUsedPiece(piece)`. -/
def addUsedPiece (s : DPS) (p : Piece) : DPS :=
  { s with usedPieces := insertSorted p s.usedPieces }

/-- Source: the `std::lower_bound` + equality test + `erase` of
`DefaultPieceStorage::deleteUsedPiece` — remove the first entry whose index is
not smaller when its index matches, otherwise leave the deque unchanged. -/
def eraseSorted (i : Nat) : List Piece → List Piece
  | [] => []
  | q :: qs =>
    if q.index < i then q :: eraseSorted i qs
    else if q.index = i then qs
    else q :: qs

/-- Source: `DefaultPieceStorage::deleteUsedPiece(piece)` — null is a no-op,
otherwise erase the matching entry (silent no-op when absent). -/
def deleteUsedPiece (s : DPS) (piece : Option Piece) : DPS :=
  match piece with
  | none => s
  | some p => { s with usedPieces := eraseSorted p.index s.usedPieces }

/-- Source: `DefaultPieceStorage::hasPiece(index)`. -/
def hasPiece (s : DPS) (i : Nat) : Bool := isBitSet s i

/-- Source: `DefaultPieceStorage::isPieceUsed(index)`. -/
def isPieceUsed (s : DPS) (i : Nat) : Bool := isUseBitSet s i

/-- Source: `DefaultPieceStorage::isEndGame()`,
`countMissingBlock() <= _endGamePieceNum`. -/
def isEndGame (s : DPS) : Bool :=
  decide (countMissingBlock s ≤ s.endGamePieceNum)

/-- Source: `DefaultPieceStorage::downloadFinished()`, which uses
`isFilteredAllBitSet` (see the TODO comment in the source). -/
def downloadFinished (s : DPS) : Bool := isFilteredAllBitSet s

/-- Source: `DefaultPieceStorage::allDownloadFinished()`. -/
def allDownloadFinished (s : DPS) : Bool := isAllBitSet s

/-- Source: `DefaultPieceStorage::checkOutPiece(index)` — set the use bit,
return the existing in-flight piece or create, record and return a new one.
(The `ENABLE_MESSAGE_DIGEST` hash-algorithm tag is not modelled; no claim
observes it.) -/
def checkOutPiece (s : DPS) (i : Nat) : Piece × DPS :=
  let s1 := setUseBit s i
  match findUsedPiece s1 i with
  | some p => (p, s1)
  | none =>
    let p := Piece.make i (blockLength s1 i)
    (p, addUsedPiece s1 p)

/-- Source: `BitfieldMan::getMaxIndex()` as used by
`DefaultPieceStorage::getPiece`, the largest valid piece index. -/
def getMaxIndex (s : DPS) : Nat := countBlock s - 1

/-- Source: `DefaultPieceStorage::getPiece(index)` — for an in-range index
return the in-flight piece when present, otherwise a fresh piece with all
blocks set when the piece is already have, all clear otherwise; never
registers the fresh piece.  The state is threaded through to make the absence
of mutation a stated fact. -/
def getPiece (s : DPS) (i : Nat) : Option Piece × DPS :=
  if i ≤ getMaxIndex s then
    match findUsedPiece s i with
    | some p => (some p, s)
    | none =>
      let p := Piece.make i (blockLength s i)
      (some (if hasPiece s i then p.setAllBlock else p), s)
  else (none, s)

/-- A piece selector as installed in `DefaultPieceStorage` (the source wires a
`RarestPieceSelector`, which is not under src/ and draws randomness for
tie-breaks; the spec, sections 4.5 and 9, treats the selector as a pluggable
strategy).  Given the candidate bitmap and the piece count it returns one
candidate index or none. -/
def Selector : Type := (Nat → Bool) → Nat → Option Nat

/-- Modelled from the spec (section 4.5): a sound selector only returns indices
that are set in the candidate bitmap and below the piece count. -/
def SelectorSound (sel : Selector) : Prop :=
  ∀ b n i, sel b n = some i → b i = true ∧ i < n

/-- Modelled from the spec (section 4.5): a selector returns none only when the
candidate bitmap is empty (`select` returns false iff the bitmap is empty). -/
def SelectorComplete (sel : Selector) : Prop :=
  ∀ b n, sel b n = none → ∀ i, i < n → b i = false

/-- The deterministic lowest-index selector (the spec, section 9, notes tests
swap in exactly this); used to instantiate selector-parametric theorems. -/
def selFirst : Selector := fun b n => (List.range n).find? b

/-- Source: `DefaultPieceStorage::getMissingPieceIndex(index, bitfield, length)`
— build the candidate bitmap (all missing in end-game, missing-and-unused
otherwise) and run the selector on it. -/
def getMissingPieceIndex (sel : Selector) (s : DPS) (peer : Nat → Bool) :
    Option Nat :=
  let rm := if isEndGame s then getAllMissingIndexes s peer
            else getAllMissingUnusedIndexes s peer
  if rm.1 then sel rm.2 (countBlock s) else none

/-- Source: `DefaultPieceStorage::getMissingPiece(bitfield, length)` — select a
candidate index and check it out, or return null. -/
def getMissingPiece (sel : Selector) (s : DPS) (peer : Nat → Bool) :
    Option Piece × DPS :=
  match getMissingPieceIndex sel s peer with
  | some index => (some (checkOutPiece s index).1, (checkOutPiece s index).2)
  | none => (none, s)

/-- Source: `DefaultPieceStorage::completePiece(piece)` — null is a no-op;
otherwise remove from the in-flight deque, return early when
`allDownloadFinished()`, else set have, clear in-use, bump the availability
counter, and record the download stop time when `downloadFinished()` holds.
(Logging is omitted.) -/
def completePiece (s : DPS) (piece : Option Piece) : DPS :=
  match piece with
  | none => s
  | some p =>
    let s1 := deleteUsedPiece s (some p)
    if allDownloadFinished s1 then s1
    else
      let s2 := addPieceStats (unsetUseBit (setBit s1 p.index) p.index) p.index
      if downloadFinished s2 then { s2 with stopTimeReset := true } else s2

/-- Source: `DefaultPieceStorage::cancelPiece(piece)` — null is a no-op;
otherwise clear the use bit and, when not in end-game and the piece has no
completed bytes, drop it from the in-flight deque. -/
def cancelPiece (s : DPS) (piece : Option Piece) : DPS :=
  match piece with
  | none => s
  | some p =>
    let s1 := unsetUseBit s p.index
    if !isEndGame s1 then
      if p.getCompletedLength = 0 then deleteUsedPiece s1 (some p) else s1
    else s1

/-- Source: `DefaultPieceStorage::getTotalLength()`. -/
def getTotalLength (s : DPS) : Nat := s.totalLength

/-- Source: `DefaultPieceStorage::getInFlightPieceCompletedLength()`, the sum
of the completed lengths of all in-flight pieces. -/
def getInFlightPieceCompletedLength (s : DPS) : Nat :=
  (s.usedPieces.map Piece.getCompletedLength).sum

/-- Source: `DefaultPieceStorage::getCompletedLength()` — bitfield completed
length plus in-flight progress, capped at the total length. -/
def getCompletedLength (s : DPS) : Nat :=
  let completedLength := bfCompletedLength s + getInFlightPieceCompletedLength s
  if completedLength > getTotalLength s then getTotalLength s
  else completedLength

/-- Source: `DefaultPieceStorage::getFilteredCompletedLength()` — filtered
bitfield completed length plus in-flight progress (the source applies no
cap here). -/
def getFilteredCompletedLength (s : DPS) : Nat :=
  bfFilteredCompletedLength s + getInFlightPieceCompletedLength s

/-- Source: `DefaultPieceStorage::getFilteredTotalLength()`. -/
def getFilteredTotalLength (s : DPS) : Nat := bfFilteredTotalLength s

/-- Source: `DefaultPieceStorage::markAllPiecesDone()`. -/
def markAllPiecesDone (s : DPS) : DPS := setAllBit s

/-- Source: the final branch of `DefaultPieceStorage::markPiecesDone(length)`:
set the full-piece prefix of have bits and register one partial in-flight
piece for the block-granular remainder.  (`_bitfieldMan->getBlockLength()`
with no argument is the piece length.) -/
def markPiecesDoneGeneral (s : DPS) (length : Nat) : DPS :=
  let numPiece := length / s.pieceLength
  let s1 := if numPiece > 0 then setBitRange s 0 (numPiece - 1) else s
  let r := (length % s.pieceLength) / BLOCK_LENGTH
  if r > 0 then
    addUsedPiece s1 ((Piece.make numPiece (blockLength s1 numPiece)).completeBlocksUpTo r)
  else s1

/-- Source: `DefaultPieceStorage::markPiecesDone(length)` — the whole total
sets every bit, zero clears every bit and empties the in-flight deque, and
any other length takes the prefix-plus-remainder branch. -/
def markPiecesDone (s : DPS) (length : Nat) : DPS :=
  if length = s.totalLength then setAllBit s
  else if length = 0 then { clearAllBit s with usedPieces := [] }
  else markPiecesDoneGeneral s length

/-- Source: `DefaultPieceStorage::markPieceMissing(index)`. -/
def markPieceMissing (s : DPS) (i : Nat) : DPS := unsetBit s i

/-- Source: the `std::sort` by `Piece` comparison (index order) in
`DefaultPieceStorage::addInFlightPiece`, realised as insertion sort. -/
def sortByIndex : List Piece → List Piece
  | [] => []
  | p :: ps => insertSorted p (sortByIndex ps)

/-- Source: `DefaultPieceStorage::addInFlightPiece(pieces)` — append the given
pieces to the deque and re-sort by index. -/
def addInFlightPiece (s : DPS) (ps : List Piece) : DPS :=
  { s with usedPieces := sortByIndex (s.usedPieces ++ ps) }

/-- Source: `DefaultPieceStorage::countInFlightPiece()`. -/
def countInFlightPiece (s : DPS) : Nat := s.usedPieces.length

/-- Number of indices whose use bit is set (the popcount of the in-use bitmap,
phrased with the public query `isPieceUsed`). -/
def countUsed (s : DPS) : Nat :=
  (List.range (countBlock s)).countP (fun i => isPieceUsed s i)

/-- Source: `DefaultPieceStorage::advertisePiece(cuid, index)` — push a
`HaveEntry` stamped with the current wallclock onto the front of `_haves`;
the clock reading is passed explicitly. -/
def advertisePiece (s : DPS) (cuid index now : Nat) : DPS :=
  { s with haves := ⟨cuid, index, now⟩ :: s.haves }

/-- Source: the loop of `DefaultPieceStorage::getAdvertisedPieceIndexes` —
walk from the front, skip own entries, stop at the first entry registered
strictly before `lastCheckTime`, collect the rest. -/
def collectHaves (myCuid since : Nat) : List HaveEntry → List Nat
  | [] => []
  | h :: hs =>
    if h.cuid = myCuid then collectHaves myCuid since hs
    else if since > h.registeredTime then []
    else h.index :: collectHaves myCuid since hs

/-- Source: `DefaultPieceStorage::getAdvertisedPieceIndexes(indexes, myCuid,
lastCheckTime)`. -/
def getAdvertisedPieceIndexes (s : DPS) (myCuid since : Nat) : List Nat :=
  collectHaves myCuid since s.haves

/-- The claim's wording of the advert walk: skip own entries and stop at the
first entry whose timestamp is less than or equal to `since`.  Stated for
comparison with `collectHaves`; the two differ when a timestamp equals
`since`. -/
def collectClaimSpec (myCuid since : Nat) : List HaveEntry → List Nat
  | [] => []
  | h :: hs =>
    if h.cuid = myCuid then collectClaimSpec myCuid since hs
    else if h.registeredTime ≤ since then []
    else h.index :: collectClaimSpec myCuid since hs

/-- The amended wording of the advert walk: skip own entries and stop at the
first entry whose timestamp is strictly less than `since`. -/
def collectAmendedSpec (myCuid since : Nat) : List HaveEntry → List Nat
  | [] => []
  | h :: hs =>
    if h.cuid = myCuid then collectAmendedSpec myCuid since hs
    else if h.registeredTime < since then []
    else h.index :: collectAmendedSpec myCuid since hs

/-- Strict index order on in-flight pieces; `_usedPieces` is maintained sorted
and duplicate-free by `addUsedPiece`'s `lower_bound` insertion. -/
def IndexLt (a b : Piece) : Prop := a.index < b.index

instance : DecidableRel IndexLt := fun a b => Nat.decLt a.index b.index

/-- Well-formedness of the in-flight deque: strictly ascending indices. -/
def IndexSorted (l : List Piece) : Prop := List.Pairwise IndexLt l

instance (l : List Piece) : Decidable (IndexSorted l) :=
  inferInstanceAs (Decidable (List.Pairwise IndexLt l))

/-- Correspondence between the in-use bitmap and the in-flight deque: the
deque is index-sorted, holds only in-range indices, and an in-range use bit is
set exactly when a deque entry carries that index. -/
def UsedInv (s : DPS) : Prop :=
  IndexSorted s.usedPieces ∧
  (∀ p ∈ s.usedPieces, p.index < countBlock s) ∧
  (∀ i, i < countBlock s → (s.useBit i = true ↔ ∃ p ∈ s.usedPieces, p.index = i))

instance (s : DPS) : Decidable (UsedInv s) := by
  unfold UsedInv
  have : Decidable
      (∀ i, i < countBlock s → (s.useBit i = true ↔ ∃ p ∈ s.usedPieces, p.index = i)) :=
    decidable_of_iff
      (∀ i ∈ List.range (countBlock s),
        (s.useBit i = true ↔ ∃ p ∈ s.usedPieces, p.index = i))
      (by simp [List.mem_range])
  exact instDecidableAnd

/-- Candidate predicate realised by the selection of `getMissingPieceIndex`:
in range, present at the peer, missing, interesting, and additionally unused
when not in end-game. -/
def missingCand (s : DPS) (peer : Nat → Bool) (i : Nat) : Bool :=
  decide (i < countBlock s) && peer i && !s.haveBit i && interesting s i &&
    (isEndGame s || !s.useBit i)

/-- A freshly constructed storage state over the given piece length, total
length and end-game threshold: all bitmaps clear, filter disabled, no
in-flight pieces, zero availability counters, empty advert queue. -/
def freshDPS (pieceLength totalLength endGamePieceNum : Nat) : DPS :=
  ⟨pieceLength, totalLength, fun _ => false, fun _ => false, false,
   fun _ => false, [], fun _ => 0, [], false, endGamePieceNum⟩

/-! Frame lemmas: which fields each operation leaves untouched. -/

@[simp] theorem countBlock_setUseBit (s : DPS) (i : Nat) :
    countBlock (setUseBit s i) = countBlock s := by
  unfold setUseBit; split <;> rfl

@[simp] theorem haveBit_setUseBit (s : DPS) (i : Nat) :
    (setUseBit s i).haveBit = s.haveBit := by
  unfold setUseBit; split <;> rfl

@[simp] theorem usedPieces_setUseBit (s : DPS) (i : Nat) :
    (setUseBit s i).usedPieces = s.usedPieces := by
  unfold setUseBit; split <;> rfl

@[simp] theorem filterEnabled_setUseBit (s : DPS) (i : Nat) :
    (setUseBit s i).filterEnabled = s.filterEnabled := by
  unfold setUseBit; split <;> rfl

@[simp] theorem filterBit_setUseBit (s : DPS) (i : Nat) :
    (setUseBit s i).filterBit = s.filterBit := by
  unfold setUseBit; split <;> rfl

theorem useBit_setUseBit (s : DPS) (i : Nat) (h : i < countBlock s) :
    (setUseBit s i).useBit = fun j => if j = i then true else s.useBit j := by
  unfold setUseBit; rw [if_pos h]

@[simp] theorem countBlock_unsetUseBit (s : DPS) (i : Nat) :
    countBlock (unsetUseBit s i) = countBlock s := by
  unfold unsetUseBit; split <;> rfl

@[simp] theorem haveBit_unsetUseBit (s : DPS) (i : Nat) :
    (unsetUseBit s i).haveBit = s.haveBit := by
  unfold unsetUseBit; split <;> rfl

@[simp] theorem usedPieces_unsetUseBit (s : DPS) (i : Nat) :
    (unsetUseBit s i).usedPieces = s.usedPieces := by
  unfold unsetUseBit; split <;> rfl

@[simp] theorem filterEnabled_unsetUseBit (s : DPS) (i : Nat) :
    (unsetUseBit s i).filterEnabled = s.filterEnabled := by
  unfold unsetUseBit; split <;> rfl

@[simp] theorem filterBit_unsetUseBit (s : DPS) (i : Nat) :
    (unsetUseBit s i).filterBit = s.filterBit := by
  unfold unsetUseBit; split <;> rfl

@[simp] theorem counts_unsetUseBit (s : DPS) (i : Nat) :
    (unsetUseBit s i).counts = s.counts := by
  unfold unsetUseBit; split <;> rfl

@[simp] theorem stopTimeReset_unsetUseBit (s : DPS) (i : Nat) :
    (unsetUseBit s i).stopTimeReset = s.stopTimeReset := by
  unfold unsetUseBit; split <;> rfl

theorem useBit_unsetUseBit (s : DPS) (i : Nat) (h : i < countBlock s) :
    (unsetUseBit s i).useBit = fun j => if j = i then false else s.useBit j := by
  unfold unsetUseBit; rw [if_pos h]

@[simp] theorem countBlock_setBit (s : DPS) (i : Nat) :
    countBlock (setBit s i) = countBlock s := by
  unfold setBit; split <;> rfl

@[simp] theorem useBit_setBit (s : DPS) (i : Nat) :
    (setBit s i).useBit = s.useBit := by
  unfold setBit; split <;> rfl

@[simp] theorem usedPieces_setBit (s : DPS) (i : Nat) :
    (setBit s i).usedPieces = s.usedPieces := by
  unfold setBit; split <;> rfl

@[simp] theorem filterEnabled_setBit (s : DPS) (i : Nat) :
    (setBit s i).filterEnabled = s.filterEnabled := by
  unfold setBit; split <;> rfl

@[simp] theorem filterBit_setBit (s : DPS) (i : Nat) :
    (setBit s i).filterBit = s.filterBit := by
  unfold setBit; split <;> rfl

@[simp] theorem counts_setBit (s : DPS) (i : Nat) :
    (setBit s i).counts = s.counts := by
  unfold setBit; split <;> rfl

@[simp] theorem stopTimeReset_setBit (s : DPS) (i : Nat) :
    (setBit s i).stopTimeReset = s.stopTimeReset := by
  unfold setBit; split <;> rfl

theorem haveBit_setBit (s : DPS) (i : Nat) (h : i < countBlock s) :
    (setBit s i).haveBit = fun j => if j = i then true else s.haveBit j := by
  unfold setBit; rw [if_pos h]

@[simp] theorem countBlock_addUsedPiece (s : DPS) (p : Piece) :
    countBlock (addUsedPiece s p) = countBlock s := rfl

@[simp] theorem haveBit_addUsedPiece (s : DPS) (p : Piece) :
    (addUsedPiece s p).haveBit = s.haveBit := rfl

@[simp] theorem useBit_addUsedPiece (s : DPS) (p : Piece) :
    (addUsedPiece s p).useBit = s.useBit := rfl

@[simp] theorem filterEnabled_addUsedPiece (s : DPS) (p : Piece) :
    (addUsedPiece s p).filterEnabled = s.filterEnabled := rfl

@[simp] theorem filterBit_addUsedPiece (s : DPS) (p : Piece) :
    (addUsedPiece s p).filterBit = s.filterBit := rfl

@[simp] theorem countBlock_deleteUsedPiece (s : DPS) (p : Option Piece) :
    countBlock (deleteUsedPiece s p) = countBlock s := by
  unfold deleteUsedPiece; cases p <;> rfl

@[simp] theorem haveBit_deleteUsedPiece (s : DPS) (p : Option Piece) :
    (deleteUsedPiece s p).haveBit = s.haveBit := by
  unfold deleteUsedPiece; cases p <;> rfl

@[simp] theorem useBit_deleteUsedPiece (s : DPS) (p : Option Piece) :
    (deleteUsedPiece s p).useBit = s.useBit := by
  unfold deleteUsedPiece; cases p <;> rfl

@[simp] theorem counts_deleteUsedPiece (s : DPS) (p : Option Piece) :
    (deleteUsedPiece s p).counts = s.counts := by
  unfold deleteUsedPiece; cases p <;> rfl

@[simp] theorem filterEnabled_deleteUsedPiece (s : DPS) (p : Option Piece) :
    (deleteUsedPiece s p).filterEnabled = s.filterEnabled := by
  unfold deleteUsedPiece; cases p <;> rfl

@[simp] theorem filterBit_deleteUsedPiece (s : DPS) (p : Option Piece) :
    (deleteUsedPiece s p).filterBit = s.filterBit := by
  unfold deleteUsedPiece; cases p <;> rfl

@[simp] theorem stopTimeReset_deleteUsedPiece (s : DPS) (p : Option Piece) :
    (deleteUsedPiece s p).stopTimeReset = s.stopTimeReset := by
  unfold deleteUsedPiece; cases p <;> rfl

@[simp] theorem countBlock_addPieceStats (s : DPS) (i : Nat) :
    countBlock (addPieceStats s i) = countBlock s := rfl

@[simp] theorem haveBit_addPieceStats (s : DPS) (i : Nat) :
    (addPieceStats s i).haveBit = s.haveBit := rfl

@[simp] theorem useBit_addPieceStats (s : DPS) (i : Nat) :
    (addPieceStats s i).useBit = s.useBit := rfl

@[simp] theorem usedPieces_addPieceStats (s : DPS) (i : Nat) :
    (addPieceStats s i).usedPieces = s.usedPieces := rfl

@[simp] theorem filterEnabled_addPieceStats (s : DPS) (i : Nat) :
    (addPieceStats s i).filterEnabled = s.filterEnabled := rfl

@[simp] theorem filterBit_addPieceStats (s : DPS) (i : Nat) :
    (addPieceStats s i).filterBit = s.filterBit := rfl

@[simp] theorem stopTimeReset_addPieceStats (s : DPS) (i : Nat) :
    (addPieceStats s i).stopTimeReset = s.stopTimeReset := rfl

/-! Lemmas about the sorted in-flight deque primitives. -/

theorem lowerBoundFind_eq_some {i : Nat} {l : List Piece} {q : Piece}
    (h : lowerBoundFind i l = some q) : q ∈ l ∧ q.index = i := by
  induction l with
  | nil => simp [lowerBoundFind] at h
  | cons a as ih =>
    rw [lowerBoundFind] at h
    split at h
    · rcases ih h with ⟨hm, hi⟩
      exact ⟨List.mem_cons_of_mem _ hm, hi⟩
    · split at h
      · cases h
        exact ⟨List.mem_cons_self _ _, by assumption⟩
      · cases h

theorem lowerBoundFind_eq_none {i : Nat} {l : List Piece}
    (hs : IndexSorted l) (h : lowerBoundFind i l = none) :
    ∀ q ∈ l, q.index ≠ i := by
  induction l with
  | nil => intro q hq; cases hq
  | cons a as ih =>
    rw [lowerBoundFind] at h
    rcases List.pairwise_cons.mp hs with ⟨ha, htail⟩
    intro q hq
    rcases List.mem_cons.mp hq with rfl | hq
    · split at h
      · omega
      · split at h
        · cases h
        · omega
    · split at h
      · exact ih htail h q hq
      · split at h
        · cases h
        · have := ha q hq
          unfold IndexLt at this
          omega

theorem lowerBoundFind_of_mem {i : Nat} {l : List Piece} {q : Piece}
    (hs : IndexSorted l) (hq : q ∈ l) (hi : q.index = i) :
    lowerBoundFind i l = some q := by
  induction l with
  | nil => cases hq
  | cons a as ih =>
    rcases List.pairwise_cons.mp hs with ⟨ha, htail⟩
    rw [lowerBoundFind]
    rcases List.mem_cons.mp hq with rfl | hq
    · rw [if_neg (by omega), if_pos hi]
    · have halt : a.index < q.index := ha q hq
      rw [if_pos (by omega)]
      exact ih htail hq

theorem mem_insertSorted {p q : Piece} {l : List Piece} :
    q ∈ insertSorted p l ↔ q = p ∨ q ∈ l := by
  induction l with
  | nil => simp [insertSorted]
  | cons a as ih =>
    rw [insertSorted]
    split
    · simp only [List.mem_cons, ih]
      tauto
    · simp only [List.mem_cons]

theorem length_insertSorted (p : Piece) (l : List Piece) :
    (insertSorted p l).length = l.length + 1 := by
  induction l with
  | nil => rfl
  | cons a as ih =>
    rw [insertSorted]
    split
    · simp [ih]
    · simp

theorem insertSorted_pairwise {p : Piece} {l : List Piece}
    (hs : IndexSorted l) (hne : ∀ q ∈ l, q.index ≠ p.index) :
    IndexSorted (insertSorted p l) := by
  induction l with
  | nil => exact List.pairwise_singleton _ _
  | cons a as ih =>
    rcases List.pairwise_cons.mp hs with ⟨ha, htail⟩
    rw [insertSorted]
    split
    · refine List.pairwise_cons.mpr ⟨?_, ?_⟩
      · intro q hq
        rcases mem_insertSorted.mp hq with rfl | hq
        · assumption
        · exact ha q hq
      · exact ih htail (fun q hq => hne q (List.mem_cons_of_mem _ hq))
    · refine List.pairwise_cons.mpr ⟨?_, hs⟩
      intro q hq
      rcases List.mem_cons.mp hq with rfl | hq
      · have := hne q (List.mem_cons_self _ _)
        unfold IndexLt
        omega
      · have h1 := ha q hq
        have h2 := hne a (List.mem_cons_self _ _)
        unfold IndexLt at h1 ⊢
        omega

theorem mem_eraseSorted {i : Nat} {l : List Piece}
    (hs : IndexSorted l) (q : Piece) :
    q ∈ eraseSorted i l ↔ q ∈ l ∧ q.index ≠ i := by
  induction l with
  | nil => simp [eraseSorted]
  | cons a as ih =>
    rcases List.pairwise_cons.mp hs with ⟨ha, htail⟩
    rw [eraseSorted]
    split
    · rw [List.mem_cons, List.mem_cons, ih htail]
      constructor
      · rintro (rfl | ⟨hq, hne⟩)
        · exact ⟨Or.inl rfl, by omega⟩
        · exact ⟨Or.inr hq, hne⟩
      · rintro ⟨rfl | hq, hne⟩
        · exact Or.inl rfl
        · exact Or.inr ⟨hq, hne⟩
    · split
      · rw [List.mem_cons]
        constructor
        · intro hq
          have := ha q hq
          unfold IndexLt at this
          exact ⟨Or.inr hq, by omega⟩
        · rintro ⟨rfl | hq, hne⟩
          · omega
          · exact hq
      · rw [List.mem_cons]
        constructor
        · rintro (rfl | hq)
          · exact ⟨Or.inl rfl, by omega⟩
          · have := ha q hq
            unfold IndexLt at this
            exact ⟨Or.inr hq, by omega⟩
        · rintro ⟨hq, _⟩
          exact hq

theorem eraseSorted_pairwise {i : Nat} {l : List Piece}
    (hs : IndexSorted l) : IndexSorted (eraseSorted i l) := by
  induction l with
  | nil => exact List.Pairwise.nil
  | cons a as ih =>
    rcases List.pairwise_cons.mp hs with ⟨ha, htail⟩
    rw [eraseSorted]
    split
    · refine List.pairwise_cons.mpr ⟨?_, ih htail⟩
      intro q hq
      exact ha q ((mem_eraseSorted htail q).mp hq).1
    · split
      · exact htail
      · exact hs

/-! Counting lemma: under `UsedInv` the in-flight deque size is the popcount
of the in-use bitmap. -/

theorem usedInv_count {s : DPS} (h : UsedInv s) :
    countInFlightPiece s = countUsed s := by
  obtain ⟨hsort, hbound, hcorr⟩ := h
  have hmap : (s.usedPieces.map Piece.index).Pairwise (· < ·) :=
    List.pairwise_map.mpr hsort
  have hnodup : (s.usedPieces.map Piece.index).Nodup :=
    hmap.imp Nat.ne_of_lt
  have hperm :
      ((List.range (countBlock s)).filter (fun i => isPieceUsed s i)).Perm
        (s.usedPieces.map Piece.index) := by
    rw [List.perm_ext_iff_of_nodup ((List.nodup_range _).filter _) hnodup]
    intro a
    simp only [List.mem_filter, List.mem_range, List.mem_map]
    constructor
    · rintro ⟨ha, hu⟩
      have hub : s.useBit a = true := by
        unfold isPieceUsed isUseBitSet at hu
        simpa [ha] using hu
      rcases (hcorr a ha).mp hub with ⟨p, hp, hpi⟩
      exact ⟨p, hp, hpi⟩
    · rintro ⟨p, hp, rfl⟩
      have ha := hbound p hp
      refine ⟨ha, ?_⟩
      have hub : s.useBit p.index = true := (hcorr _ ha).mpr ⟨p, hp, rfl⟩
      unfold isPieceUsed isUseBitSet
      simp [ha, hub]
  have hlen := hperm.length_eq
  rw [List.length_map] at hlen
  rw [countInFlightPiece, countUsed, List.countP_eq_length_filter, ← hlen]

/-! Lemmas about `checkOutPiece` and the selector. -/

theorem checkOutPiece_snd_haveBit (s : DPS) (i : Nat) :
    (checkOutPiece s i).2.haveBit = s.haveBit := by
  cases hf : findUsedPiece (setUseBit s i) i <;>
    simp [checkOutPiece, hf]

theorem checkOutPiece_snd_countBlock (s : DPS) (i : Nat) :
    countBlock (checkOutPiece s i).2 = countBlock s := by
  cases hf : findUsedPiece (setUseBit s i) i <;>
    simp [checkOutPiece, hf]

theorem checkOutPiece_snd_useBit (s : DPS) (i : Nat) (h : i < countBlock s) :
    (checkOutPiece s i).2.useBit =
      fun j => if j = i then true else s.useBit j := by
  cases hf : findUsedPiece (setUseBit s i) i <;>
    simp [checkOutPiece, hf, useBit_setUseBit s i h]

theorem checkOutPiece_fst_index (s : DPS) (i : Nat) :
    (checkOutPiece s i).1.index = i := by
  cases hf : findUsedPiece (setUseBit s i) i with
  | none => simp [checkOutPiece, hf, Piece.make]
  | some p =>
    have := (lowerBoundFind_eq_some hf).2
    simp [checkOutPiece, hf, this]

theorem checkOutPiece_mem (s : DPS) (i : Nat) :
    ∃ q ∈ (checkOutPiece s i).2.usedPieces, q.index = i := by
  cases hf : findUsedPiece (setUseBit s i) i with
  | none =>
    refine ⟨Piece.make i (blockLength (setUseBit s i) i), ?_, rfl⟩
    simp [checkOutPiece, hf, addUsedPiece, mem_insertSorted]
  | some p =>
    rcases lowerBoundFind_eq_some hf with ⟨hm, hidx⟩
    rw [usedPieces_setUseBit] at hm
    exact ⟨p, by simp [checkOutPiece, hf, hm], hidx⟩

theorem isPieceUsed_checkOutPiece (s : DPS) (i : Nat) (h : i < countBlock s) :
    isPieceUsed (checkOutPiece s i).2 i = true := by
  rw [isPieceUsed, isUseBitSet, checkOutPiece_snd_countBlock,
    checkOutPiece_snd_useBit s i h]
  simp [h]

theorem setUseBit_already (s : DPS) (i : Nat) (h : s.useBit i = true) :
    setUseBit s i = s := by
  rw [setUseBit]
  split
  · have hfun : (fun j => if j = i then true else s.useBit j) = s.useBit := by
      funext j
      by_cases hj : j = i
      · subst hj; rw [if_pos rfl, h]
      · rw [if_neg hj]
    rw [hfun]
  · rfl

theorem countP_index_eq_one {l : List Piece} {q : Piece} {i : Nat}
    (hs : IndexSorted l) (hq : q ∈ l) (hi : q.index = i) :
    l.countP (fun r => r.index == i) = 1 := by
  induction l with
  | nil => cases hq
  | cons a as ih =>
    rcases List.pairwise_cons.mp hs with ⟨ha, htail⟩
    rcases List.mem_cons.mp hq with rfl | hq
    · have hz : as.countP (fun r => r.index == i) = 0 := by
        rw [List.countP_eq_zero]
        intro r hr
        have := ha r hr
        unfold IndexLt at this
        simp only [beq_iff_eq]
        omega
      rw [List.countP_cons, hz]
      simp [hi]
    · have hne : (a.index == i) = false := by
        have h1 := ha q hq
        unfold IndexLt at h1
        simp only [beq_eq_false_iff_ne, ne_eq]
        omega
      rw [List.countP_cons, ih htail hq]
      simp [hne]

theorem selFirst_sound : SelectorSound selFirst := by
  intro b n i h
  rw [selFirst] at h
  exact ⟨List.find?_some h, List.mem_range.mp (List.mem_of_find?_eq_some h)⟩

theorem selFirst_complete : SelectorComplete selFirst := by
  intro b n h i hi
  rw [selFirst] at h
  have := List.find?_eq_none.mp h i (List.mem_range.mpr hi)
  simpa using this

theorem isEndGame_unsetUseBit (s : DPS) (i : Nat) :
    isEndGame (unsetUseBit s i) = isEndGame s := by
  rw [isEndGame, isEndGame]
  rw [unsetUseBit]
  split <;> rfl

theorem bool_and_rot (a u v : Bool) (h : (a && u && v) = false) :
    (a && v && u) = false := by
  revert h
  cases a <;> cases u <;> cases v <;> decide

theorem bool_and_rot_true (a u v : Bool) (h : (a && u && v) = true) :
    (a && v && u) = true := by
  revert h
  cases a <;> cases u <;> cases v <;> decide

/-- In end-game the bitmap of `getAllMissingIndexes` agrees with
`missingCand` pointwise: true case. -/
theorem cand_true_endgame {s : DPS} {peer : Nat → Bool} {i : Nat}
    (hend : isEndGame s = true) (h : (getAllMissingIndexes s peer).2 i = true) :
    missingCand s peer i = true := by
  simp only [getAllMissingIndexes] at h
  simp only [missingCand, hend, Bool.true_or, Bool.and_true]
  exact h

/-- In end-game the bitmap of `getAllMissingIndexes` agrees with
`missingCand` pointwise: false case. -/
theorem cand_false_endgame {s : DPS} {peer : Nat → Bool} {i : Nat}
    (hend : isEndGame s = true) (h : (getAllMissingIndexes s peer).2 i = false) :
    missingCand s peer i = false := by
  simp only [getAllMissingIndexes] at h
  simp only [missingCand, hend, Bool.true_or, Bool.and_true]
  exact h

/-- Outside end-game the bitmap of `getAllMissingUnusedIndexes` agrees with
`missingCand` pointwise: true case. -/
theorem cand_true_normal {s : DPS} {peer : Nat → Bool} {i : Nat}
    (hend : isEndGame s = false)
    (h : (getAllMissingUnusedIndexes s peer).2 i = true) :
    missingCand s peer i = true := by
  simp only [getAllMissingUnusedIndexes] at h
  simp only [missingCand, hend, Bool.false_or]
  exact bool_and_rot_true _ _ _ h

/-- Outside end-game the bitmap of `getAllMissingUnusedIndexes` agrees with
`missingCand` pointwise: false case. -/
theorem cand_false_normal {s : DPS} {peer : Nat → Bool} {i : Nat}
    (hend : isEndGame s = false)
    (h : (getAllMissingUnusedIndexes s peer).2 i = false) :
    missingCand s peer i = false := by
  simp only [getAllMissingUnusedIndexes] at h
  simp only [missingCand, hend, Bool.false_or]
  exact bool_and_rot _ _ _ h

theorem getMissingPieceIndex_some {sel : Selector} (hsel : SelectorSound sel)
    {s : DPS} {peer : Nat → Bool} {idx : Nat}
    (h : getMissingPieceIndex sel s peer = some idx) :
    missingCand s peer idx = true ∧ idx < countBlock s := by
  cases hend : isEndGame s with
  | true =>
    have h' : (if (getAllMissingIndexes s peer).1 = true then
        sel (getAllMissingIndexes s peer).2 (countBlock s) else none) =
        some idx := by
      rw [getMissingPieceIndex, if_pos hend] at h
      exact h
    split at h'
    · rcases hsel _ _ _ h' with ⟨hb, hlt⟩
      exact ⟨cand_true_endgame hend hb, hlt⟩
    · cases h'
  | false =>
    have h' : (if (getAllMissingUnusedIndexes s peer).1 = true then
        sel (getAllMissingUnusedIndexes s peer).2 (countBlock s) else none) =
        some idx := by
      have hif : (if isEndGame s then getAllMissingIndexes s peer
          else getAllMissingUnusedIndexes s peer) =
          getAllMissingUnusedIndexes s peer := if_neg (by simp [hend])
      rw [getMissingPieceIndex, hif] at h
      exact h
    split at h'
    · rcases hsel _ _ _ h' with ⟨hb, hlt⟩
      exact ⟨cand_true_normal hend hb, hlt⟩
    · cases h'

theorem getMissingPieceIndex_none {sel : Selector}
    (hcomp : SelectorComplete sel) {s : DPS} {peer : Nat → Bool}
    (h : getMissingPieceIndex sel s peer = none) :
    ∀ i, missingCand s peer i = false := by
  intro i
  by_cases hin : i < countBlock s
  swap
  · rw [missingCand]
    simp [hin]
  cases hend : isEndGame s with
  | true =>
    have h' : (if (getAllMissingIndexes s peer).1 = true then
        sel (getAllMissingIndexes s peer).2 (countBlock s) else none) =
        none := by
      rw [getMissingPieceIndex, if_pos hend] at h
      exact h
    apply cand_false_endgame hend
    split at h'
    · exact hcomp _ _ h' i hin
    · rename_i hcond
      have hany : (List.range (countBlock s)).any
          (getAllMissingIndexes s peer).2 = false :=
        Bool.not_eq_true _ ▸ hcond
      have := List.any_eq_false.mp hany _ (List.mem_range.mpr hin)
      simpa using this
  | false =>
    have h' : (if (getAllMissingUnusedIndexes s peer).1 = true then
        sel (getAllMissingUnusedIndexes s peer).2 (countBlock s) else none) =
        none := by
      have hif : (if isEndGame s then getAllMissingIndexes s peer
          else getAllMissingUnusedIndexes s peer) =
          getAllMissingUnusedIndexes s peer := if_neg (by simp [hend])
      rw [getMissingPieceIndex, hif] at h
      exact h
    apply cand_false_normal hend
    split at h'
    · exact hcomp _ _ h' i hin
    · rename_i hcond
      have hany : (List.range (countBlock s)).any
          (getAllMissingUnusedIndexes s peer).2 = false :=
        Bool.not_eq_true _ ▸ hcond
      have := List.any_eq_false.mp hany _ (List.mem_range.mpr hin)
      simpa using this

theorem usedInv_checkOutPiece (s : DPS) (i : Nat) (h : i < countBlock s)
    (hinv : UsedInv s) : UsedInv (checkOutPiece s i).2 := by
  obtain ⟨hsort, hbound, hcorr⟩ := hinv
  cases hf : findUsedPiece (setUseBit s i) i with
  | some p =>
    rcases lowerBoundFind_eq_some hf with ⟨hm, hpi⟩
    rw [usedPieces_setUseBit] at hm
    have hst : (checkOutPiece s i).2 = setUseBit s i := by
      simp [checkOutPiece, hf]
    rw [hst]
    refine ⟨?_, ?_, ?_⟩
    · rw [IndexSorted, usedPieces_setUseBit]
      exact hsort
    · intro q hq
      rw [usedPieces_setUseBit] at hq
      rw [countBlock_setUseBit]
      exact hbound q hq
    · intro j hj
      rw [countBlock_setUseBit] at hj
      rw [useBit_setUseBit s i h, usedPieces_setUseBit]
      by_cases hji : j = i
      · subst hji
        simp only [if_pos rfl]
        exact iff_of_true rfl ⟨p, hm, hpi⟩
      · simp only [if_neg hji]
        exact hcorr j hj
  | none =>
    have hst : (checkOutPiece s i).2 =
        addUsedPiece (setUseBit s i)
          (Piece.make i (blockLength (setUseBit s i) i)) := by
      simp [checkOutPiece, hf]
    have hne : ∀ q ∈ s.usedPieces, q.index ≠ i := by
      rw [findUsedPiece, usedPieces_setUseBit] at hf
      exact lowerBoundFind_eq_none hsort hf
    rw [hst]
    refine ⟨?_, ?_, ?_⟩
    · rw [IndexSorted, addUsedPiece, usedPieces_setUseBit]
      exact insertSorted_pairwise hsort hne
    · intro q hq
      rw [addUsedPiece] at hq
      simp only [usedPieces_setUseBit] at hq
      rw [countBlock_addUsedPiece, countBlock_setUseBit]
      rcases mem_insertSorted.mp hq with rfl | hq
      · exact h
      · exact hbound q hq
    · intro j hj
      rw [countBlock_addUsedPiece, countBlock_setUseBit] at hj
      rw [addUsedPiece]
      show (setUseBit s i).useBit j = true ↔ _
      rw [useBit_setUseBit s i h]
      simp only [usedPieces_setUseBit]
      by_cases hji : j = i
      · subst hji
        simp only [if_pos rfl]
        exact iff_of_true rfl
          ⟨Piece.make j (blockLength (setUseBit s j) j),
            mem_insertSorted.mpr (Or.inl rfl), rfl⟩
      · simp only [if_neg hji]
        rw [hcorr j hj]
        constructor
        · rintro ⟨q, hq, hqi⟩
          exact ⟨q, mem_insertSorted.mpr (Or.inr hq), hqi⟩
        · rintro ⟨q, hq, hqi⟩
          rcases mem_insertSorted.mp hq with rfl | hq
          · have hij : i = j := hqi
            exact absurd hij.symm hji
          · exact ⟨q, hq, hqi⟩

theorem checkOutPiece_already (t : DPS) (i : Nat) (q : Piece)
    (h1 : setUseBit t i = t) (h2 : findUsedPiece t i = some q) :
    checkOutPiece t i = (q, t) := by
  simp only [checkOutPiece, h1, h2]

theorem checkOutPiece_sorted (s : DPS) (i : Nat)
    (hs : IndexSorted s.usedPieces) :
    IndexSorted (checkOutPiece s i).2.usedPieces := by
  cases hf : findUsedPiece (setUseBit s i) i with
  | some p =>
    have he : (checkOutPiece s i).2.usedPieces = s.usedPieces := by
      simp [checkOutPiece, hf]
    rw [he]
    exact hs
  | none =>
    have hne : ∀ q ∈ s.usedPieces, q.index ≠ i := by
      rw [findUsedPiece, usedPieces_setUseBit] at hf
      exact lowerBoundFind_eq_none hs hf
    have he : (checkOutPiece s i).2.usedPieces =
        insertSorted (Piece.make i (blockLength (setUseBit s i) i))
          s.usedPieces := by
      simp [checkOutPiece, hf, addUsedPiece]
    rw [he]
    exact insertSorted_pairwise hs hne

theorem isPieceUsed_unsetUseBit_self (s : DPS) (i : Nat) :
    isPieceUsed (unsetUseBit s i) i = false := by
  by_cases h : i < countBlock s
  · rw [isPieceUsed, isUseBitSet, countBlock_unsetUseBit,
      useBit_unsetUseBit s i h]
    simp
  · rw [isPieceUsed, isUseBitSet, countBlock_unsetUseBit]
    simp [h]

theorem useBit_unsetUseBit_other (s : DPS) (i j : Nat) (h : j ≠ i) :
    (unsetUseBit s i).useBit j = s.useBit j := by
  rw [unsetUseBit]
  split
  · simp [h]
  · rfl

theorem isPieceUsed_congr {t u : DPS} (hc : countBlock t = countBlock u)
    (hu : t.useBit = u.useBit) (i : Nat) :
    isPieceUsed t i = isPieceUsed u i := by
  rw [isPieceUsed, isPieceUsed, isUseBitSet, isUseBitSet, hc, hu]

theorem allDownloadFinished_deleteUsedPiece (s : DPS) (x : Option Piece) :
    allDownloadFinished (deleteUsedPiece s x) = allDownloadFinished s := by
  rw [allDownloadFinished, allDownloadFinished, isAllBitSet, isAllBitSet,
    countBlock_deleteUsedPiece]
  simp only [haveBit_deleteUsedPiece]

theorem collectHaves_eq_amended (c t : Nat) (l : List HaveEntry) :
    collectHaves c t l = collectAmendedSpec c t l := by
  induction l with
  | nil => rfl
  | cons h hs ih =>
    by_cases hc : h.cuid = c <;> by_cases ht : h.registeredTime < t <;>
      simp [collectHaves, collectAmendedSpec, hc, ht, ih]

theorem checkOutPiece_fst_mem (s : DPS) (i : Nat) :
    (checkOutPiece s i).1 ∈ (checkOutPiece s i).2.usedPieces := by
  cases hf : findUsedPiece (setUseBit s i) i with
  | some p =>
    rcases lowerBoundFind_eq_some hf with ⟨hm, _⟩
    rw [usedPieces_setUseBit] at hm
    simpa [checkOutPiece, hf] using hm
  | none =>
    simp [checkOutPiece, hf, addUsedPiece, mem_insertSorted]

/-! Claim theorems. -/

/-- C1, counterexample: starting from a fresh single-piece state, the public
call sequence `markAllPiecesDone(); checkOutPiece(0)` (all arguments in
range) ends with both `hasPiece(0)` and `isPieceUsed(0)` true, because
`checkOutPiece` sets the use bit without consulting the have bit. -/
theorem checkout_after_have_breaks_exclusion :
    hasPiece (checkOutPiece (markAllPiecesDone (freshDPS 1 1 0)) 0).2 0 = true ∧
    isPieceUsed (checkOutPiece (markAllPiecesDone (freshDPS 1 1 0)) 0).2 0 = true := by
  decide

/-- C1, amended: `checkOutPiece` may set the in-use bit of an already-have
piece, so the exclusion can break after a bare `checkOutPiece`; the selecting
`getMissingPiece`, however, only ever checks out a missing piece, so it
preserves the exclusion: if no index has both `hasPiece` and `isPieceUsed`
set before the call, none has after it returns. -/
theorem getMissingPiece_preserves_have_inuse_exclusion
    (sel : Selector) (s : DPS) (peer : Nat → Bool)
    (hsel : SelectorSound sel)
    (hinv : ∀ i, ¬(hasPiece s i = true ∧ isPieceUsed s i = true)) :
    ∀ i, ¬(hasPiece (getMissingPiece sel s peer).2 i = true ∧
           isPieceUsed (getMissingPiece sel s peer).2 i = true) := by
  intro i hcontra
  rcases hidx : getMissingPieceIndex sel s peer with _ | idx
  · rw [getMissingPiece, hidx] at hcontra
    exact hinv i hcontra
  · rw [getMissingPiece, hidx] at hcontra
    rcases hcontra with ⟨hh, hu⟩
    rcases getMissingPieceIndex_some hsel hidx with ⟨hcand, hlt⟩
    have hhave : s.haveBit idx = false := by
      rw [missingCand] at hcand
      simp only [Bool.and_eq_true, Bool.not_eq_true'] at hcand
      exact hcand.1.1.2
    rw [hasPiece, isBitSet, checkOutPiece_snd_haveBit,
      checkOutPiece_snd_countBlock] at hh
    rw [isPieceUsed, isUseBitSet, checkOutPiece_snd_countBlock,
      checkOutPiece_snd_useBit s idx hlt] at hu
    by_cases hi : i = idx
    · subst hi
      rw [Bool.and_eq_true] at hh
      rw [hh.2] at hhave
      cases hhave
    · simp only [if_neg hi] at hu
      exact hinv i ⟨hh, hu⟩

/-- C1, witness for the amended theorem, at the deterministic lowest-index
selector, a fresh two-piece state and an all-ones peer bitmap. -/
theorem getMissingPiece_preserves_have_inuse_exclusion_witness :
    SelectorSound selFirst ∧
    (∀ i, ¬(hasPiece (freshDPS 1 2 0) i = true ∧
            isPieceUsed (freshDPS 1 2 0) i = true)) ∧
    (∀ i, ¬(hasPiece (getMissingPiece selFirst (freshDPS 1 2 0)
              (fun _ => true)).2 i = true ∧
           isPieceUsed (getMissingPiece selFirst (freshDPS 1 2 0)
              (fun _ => true)).2 i = true)) :=
  ⟨selFirst_sound,
   fun i hc => by simp [freshDPS, hasPiece, isBitSet] at hc,
   getMissingPiece_preserves_have_inuse_exclusion selFirst (freshDPS 1 2 0)
     (fun _ => true) selFirst_sound
     (fun i hc => by simp [freshDPS, hasPiece, isBitSet] at hc)⟩

/-- C2, counterexample: from a fresh two-piece state (piece length 32768,
total 65536), the public call `markPiecesDone(16384)` — a non-zero remainder
of one block — registers one in-flight piece while setting no use bit, so
`countInFlightPiece()` is 1 while no index has `isPieceUsed` true. -/
theorem markPiecesDone_remainder_breaks_popcount :
    countInFlightPiece (markPiecesDone (freshDPS 32768 65536 0) 16384) = 1 ∧
    countUsed (markPiecesDone (freshDPS 32768 65536 0) 16384) = 0 := by
  decide

/-- C2, amended: `markPiecesDone` with a non-zero remainder and
`addInFlightPiece` insert pieces without setting use bits, breaking the
equality; `checkOutPiece` (hence every selecting call) preserves it: from a
state where the use bitmap and the in-flight set correspond index-for-index,
after `checkOutPiece(i)` the correspondence still holds and
`countInFlightPiece()` equals the number of indices with `isPieceUsed` true. -/
theorem checkOutPiece_inflight_count_eq_popcount (s : DPS) (i : Nat)
    (h : i < countBlock s) (hinv : UsedInv s) :
    UsedInv (checkOutPiece s i).2 ∧
    countInFlightPiece (checkOutPiece s i).2 = countUsed (checkOutPiece s i).2 :=
  have h2 := usedInv_checkOutPiece s i h hinv
  ⟨h2, usedInv_count h2⟩

/-- C2, witness for the amended theorem at a fresh two-piece state. -/
theorem checkOutPiece_inflight_count_eq_popcount_witness :
    0 < countBlock (freshDPS 32768 65536 0) ∧ UsedInv (freshDPS 32768 65536 0) ∧
    (UsedInv (checkOutPiece (freshDPS 32768 65536 0) 0).2 ∧
     countInFlightPiece (checkOutPiece (freshDPS 32768 65536 0) 0).2 =
       countUsed (checkOutPiece (freshDPS 32768 65536 0) 0).2) :=
  ⟨by decide, by decide,
   checkOutPiece_inflight_count_eq_popcount (freshDPS 32768 65536 0) 0
     (by decide) (by decide)⟩

/-- C9: `markPiecesDone(0)` performs a full reset — every have bit reads as
clear afterwards and the in-flight set is emptied — whereas the general
prefix branch evaluated at length 0 would have left the state exactly
unchanged. -/
theorem markPiecesDone_zero_resets (s : DPS) (h : 0 < s.totalLength) :
    (∀ i, hasPiece (markPiecesDone s 0) i = false) ∧
    (markPiecesDone s 0).usedPieces = [] ∧
    markPiecesDoneGeneral s 0 = s := by
  refine ⟨?_, ?_, ?_⟩
  · intro i
    rw [markPiecesDone, if_neg (by omega), if_pos rfl]
    simp [hasPiece, isBitSet, clearAllBit]
  · rw [markPiecesDone, if_neg (by omega), if_pos rfl]
  · rw [markPiecesDoneGeneral]
    simp [Nat.zero_div, Nat.zero_mod]

/-- C5: `checkOutPiece` is idempotent — the second of two consecutive calls
with the same in-range index returns the same piece and leaves the state
exactly as after the first call; after both calls the in-flight deque holds
exactly one entry for the index and its use bit is set. -/
theorem checkOutPiece_idempotent (s : DPS) (i : Nat) (h : i < countBlock s)
    (hs : IndexSorted s.usedPieces) :
    (checkOutPiece (checkOutPiece s i).2 i).1 = (checkOutPiece s i).1 ∧
    (checkOutPiece (checkOutPiece s i).2 i).2 = (checkOutPiece s i).2 ∧
    (checkOutPiece s i).2.usedPieces.countP (fun q => q.index == i) = 1 ∧
    isPieceUsed (checkOutPiece s i).2 i = true := by
  have hsort1 : IndexSorted (checkOutPiece s i).2.usedPieces :=
    checkOutPiece_sorted s i hs
  have hu1 : (checkOutPiece s i).2.useBit i = true := by
    rw [checkOutPiece_snd_useBit s i h]
    simp
  have hsu : setUseBit (checkOutPiece s i).2 i = (checkOutPiece s i).2 :=
    setUseBit_already _ _ hu1
  have hfind2 : findUsedPiece (checkOutPiece s i).2 i =
      some (checkOutPiece s i).1 :=
    lowerBoundFind_of_mem hsort1 (checkOutPiece_fst_mem s i)
      (checkOutPiece_fst_index s i)
  have hco2 : checkOutPiece (checkOutPiece s i).2 i =
      ((checkOutPiece s i).1, (checkOutPiece s i).2) :=
    checkOutPiece_already _ i _ hsu hfind2
  refine ⟨?_, ?_, ?_, ?_⟩
  · rw [hco2]
  · rw [hco2]
  · exact countP_index_eq_one hsort1 (checkOutPiece_fst_mem s i)
      (checkOutPiece_fst_index s i)
  · exact isPieceUsed_checkOutPiece s i h

/-- C5, witness at a fresh two-piece state and index 1. -/
theorem checkOutPiece_idempotent_witness :
    1 < countBlock (freshDPS 1 2 0) ∧ IndexSorted (freshDPS 1 2 0).usedPieces ∧
    ((checkOutPiece (checkOutPiece (freshDPS 1 2 0) 1).2 1).1 =
       (checkOutPiece (freshDPS 1 2 0) 1).1 ∧
     (checkOutPiece (checkOutPiece (freshDPS 1 2 0) 1).2 1).2 =
       (checkOutPiece (freshDPS 1 2 0) 1).2 ∧
     (checkOutPiece (freshDPS 1 2 0) 1).2.usedPieces.countP
       (fun q => q.index == 1) = 1 ∧
     isPieceUsed (checkOutPiece (freshDPS 1 2 0) 1).2 1 = true) :=
  ⟨by decide, by decide,
   checkOutPiece_idempotent (freshDPS 1 2 0) 1 (by decide) (by decide)⟩

/-- C4: with a sound and complete selector, `getMissingPiece(peerBitmap)`
returns a piece exactly when a candidate exists — a candidate being a peer
piece that is missing and interesting, and additionally unused outside
end-game (`missingCand`); the returned piece is the checkout of its index
(use bit set, in-flight entry present), and on failure the state is
unchanged and no candidate exists. -/
theorem getMissingPiece_selects_and_checks_out
    (sel : Selector) (s : DPS) (peer : Nat → Bool)
    (hsel : SelectorSound sel) (hcomp : SelectorComplete sel) :
    (∀ p, (getMissingPiece sel s peer).1 = some p →
      missingCand s peer p.index = true ∧
      getMissingPiece sel s peer =
        (some (checkOutPiece s p.index).1, (checkOutPiece s p.index).2) ∧
      isPieceUsed (getMissingPiece sel s peer).2 p.index = true ∧
      ∃ q ∈ (getMissingPiece sel s peer).2.usedPieces, q.index = p.index) ∧
    ((getMissingPiece sel s peer).1 = none →
      (getMissingPiece sel s peer).2 = s ∧
      ∀ i, missingCand s peer i = false) := by
  rcases hidx : getMissingPieceIndex sel s peer with _ | idx
  · refine ⟨?_, ?_⟩
    · intro p hp
      simp only [getMissingPiece, hidx] at hp
      exact Option.noConfusion hp
    · intro _
      simp only [getMissingPiece, hidx]
      exact ⟨trivial, getMissingPieceIndex_none hcomp hidx⟩
  · rcases getMissingPieceIndex_some hsel hidx with ⟨hcand, hlt⟩
    have hpi : (checkOutPiece s idx).1.index = idx :=
      checkOutPiece_fst_index s idx
    refine ⟨?_, ?_⟩
    · intro p hp
      simp only [getMissingPiece, hidx, Option.some.injEq] at hp
      subst hp
      rw [hpi]
      refine ⟨hcand, ?_, ?_, ?_⟩
      · simp only [getMissingPiece, hidx]
      · simp only [getMissingPiece, hidx]
        exact isPieceUsed_checkOutPiece s idx hlt
      · simp only [getMissingPiece, hidx]
        exact checkOutPiece_mem s idx
    · intro hnone
      simp only [getMissingPiece, hidx] at hnone
      exact Option.noConfusion hnone

/-- C4, witness at the deterministic lowest-index selector and a fresh
two-piece state. -/
theorem getMissingPiece_selects_and_checks_out_witness :
    SelectorSound selFirst ∧ SelectorComplete selFirst ∧
    ((∀ p, (getMissingPiece selFirst (freshDPS 1 2 0) (fun _ => true)).1 =
        some p →
      missingCand (freshDPS 1 2 0) (fun _ => true) p.index = true ∧
      getMissingPiece selFirst (freshDPS 1 2 0) (fun _ => true) =
        (some (checkOutPiece (freshDPS 1 2 0) p.index).1,
         (checkOutPiece (freshDPS 1 2 0) p.index).2) ∧
      isPieceUsed (getMissingPiece selFirst (freshDPS 1 2 0)
        (fun _ => true)).2 p.index = true ∧
      ∃ q ∈ (getMissingPiece selFirst (freshDPS 1 2 0)
        (fun _ => true)).2.usedPieces, q.index = p.index) ∧
     ((getMissingPiece selFirst (freshDPS 1 2 0) (fun _ => true)).1 = none →
      (getMissingPiece selFirst (freshDPS 1 2 0) (fun _ => true)).2 =
        freshDPS 1 2 0 ∧
      ∀ i, missingCand (freshDPS 1 2 0) (fun _ => true) i = false)) :=
  ⟨selFirst_sound, selFirst_complete,
   getMissingPiece_selects_and_checks_out selFirst (freshDPS 1 2 0)
     (fun _ => true) selFirst_sound selFirst_complete⟩

/-- C6, counterexample: with the filter enabled on piece 0 only, piece 0
already have and an in-flight piece at index 1 with one complete block,
`getFilteredCompletedLength()` (which the source does not cap) exceeds
`getFilteredTotalLength()`. -/
theorem filtered_completed_length_exceeds_filtered_total :
    getFilteredCompletedLength
      ⟨1, 2, fun i => i == 0, fun _ => false, true, fun i => i == 0,
       [⟨1, 1, [true]⟩], fun _ => 0, [], false, 0⟩ >
    getFilteredTotalLength
      ⟨1, 2, fun i => i == 0, fun _ => false, true, fun i => i == 0,
       [⟨1, 1, [true]⟩], fun _ => 0, [], false, 0⟩ := by
  decide

/-- C6, amended: `getCompletedLength()` is the bitfield completed length plus
the in-flight progress capped at the total length — so it never exceeds
`getTotalLength()` — while `getFilteredCompletedLength()` is the filtered
bitfield completed length plus the in-flight progress with no cap applied. -/
theorem completed_length_spec (s : DPS) :
    getCompletedLength s =
      min (bfCompletedLength s + getInFlightPieceCompletedLength s)
        (getTotalLength s) ∧
    getCompletedLength s ≤ getTotalLength s ∧
    getFilteredCompletedLength s =
      bfFilteredCompletedLength s + getInFlightPieceCompletedLength s := by
  refine ⟨?_, ?_, rfl⟩
  · simp only [getCompletedLength]
    split <;> omega
  · simp only [getCompletedLength]
    split <;> omega

/-- C7: `cancelPiece` on a non-null piece clears that piece's use bit, leaves
every other use bit and the have bitmap alone, and drops the piece's entry
from the in-flight deque exactly when the storage is not in end-game and the
piece has no completed bytes; in end-game, or with partial progress, the
deque is unchanged. -/
theorem cancelPiece_spec (s : DPS) (p : Piece)
    (hs : IndexSorted s.usedPieces) :
    isPieceUsed (cancelPiece s (some p)) p.index = false ∧
    (∀ j, j ≠ p.index → (cancelPiece s (some p)).useBit j = s.useBit j) ∧
    (cancelPiece s (some p)).haveBit = s.haveBit ∧
    (isEndGame s = false → p.getCompletedLength = 0 →
      ∀ q, q ∈ (cancelPiece s (some p)).usedPieces ↔
        q ∈ s.usedPieces ∧ q.index ≠ p.index) ∧
    (isEndGame s = true →
      (cancelPiece s (some p)).usedPieces = s.usedPieces) ∧
    (p.getCompletedLength ≠ 0 →
      (cancelPiece s (some p)).usedPieces = s.usedPieces) := by
  have heg := isEndGame_unsetUseBit s p.index
  by_cases hend : isEndGame s = true
  · have hres : cancelPiece s (some p) = unsetUseBit s p.index := by
      simp [cancelPiece, heg, hend]
    rw [hres]
    refine ⟨isPieceUsed_unsetUseBit_self s p.index,
      fun j hj => useBit_unsetUseBit_other s p.index j hj,
      haveBit_unsetUseBit s p.index, ?_, fun _ => usedPieces_unsetUseBit s p.index,
      fun _ => usedPieces_unsetUseBit s p.index⟩
    intro hc
    rw [hc] at hend
    cases hend
  · have hend' : isEndGame s = false := by
      cases hx : isEndGame s
      · rfl
      · exact absurd hx hend
    by_cases hcl : p.getCompletedLength = 0
    · have hres : cancelPiece s (some p) =
          deleteUsedPiece (unsetUseBit s p.index) (some p) := by
        simp [cancelPiece, heg, hend', hcl]
      rw [hres]
      refine ⟨?_, ?_, ?_, ?_, ?_, ?_⟩
      · rw [isPieceUsed_congr (countBlock_deleteUsedPiece _ _)
          (useBit_deleteUsedPiece _ _) p.index]
        exact isPieceUsed_unsetUseBit_self s p.index
      · intro j hj
        rw [useBit_deleteUsedPiece]
        exact useBit_unsetUseBit_other s p.index j hj
      · rw [haveBit_deleteUsedPiece]
        exact haveBit_unsetUseBit s p.index
      · intro _ _ q
        show q ∈ eraseSorted p.index (unsetUseBit s p.index).usedPieces ↔ _
        rw [usedPieces_unsetUseBit]
        exact mem_eraseSorted hs q
      · intro hc
        rw [hc] at hend'
        cases hend'
      · intro hc
        exact absurd hcl hc
    · have hres : cancelPiece s (some p) = unsetUseBit s p.index := by
        simp [cancelPiece, heg, hend', hcl]
      rw [hres]
      refine ⟨isPieceUsed_unsetUseBit_self s p.index,
        fun j hj => useBit_unsetUseBit_other s p.index j hj,
        haveBit_unsetUseBit s p.index, ?_, ?_,
        fun _ => usedPieces_unsetUseBit s p.index⟩
      · intro _ hc
        exact absurd hc hcl
      · intro hc
        rw [hc] at hend'
        cases hend'

/-- C7, witness: a state in end-game (threshold 2 ≥ 2 missing pieces) with an
in-flight partial piece at index 0, cancelled. -/
theorem cancelPiece_spec_witness :
    IndexSorted ((⟨1, 2, fun _ => false, fun i => i == 0, false, fun _ => false,
        [⟨0, 1, [true]⟩], fun _ => 0, [], false, 2⟩ : DPS)).usedPieces ∧
    (isPieceUsed (cancelPiece
        ⟨1, 2, fun _ => false, fun i => i == 0, false, fun _ => false,
         [⟨0, 1, [true]⟩], fun _ => 0, [], false, 2⟩
        (some ⟨0, 1, [true]⟩)) (0 : Nat) = false ∧
     (∀ j, j ≠ (Piece.mk 0 1 [true]).index →
       (cancelPiece ⟨1, 2, fun _ => false, fun i => i == 0, false,
          fun _ => false, [⟨0, 1, [true]⟩], fun _ => 0, [], false, 2⟩
          (some ⟨0, 1, [true]⟩)).useBit j =
        (⟨1, 2, fun _ => false, fun i => i == 0, false, fun _ => false,
          [⟨0, 1, [true]⟩], fun _ => 0, [], false, 2⟩ : DPS).useBit j) ∧
     (cancelPiece ⟨1, 2, fun _ => false, fun i => i == 0, false,
        fun _ => false, [⟨0, 1, [true]⟩], fun _ => 0, [], false, 2⟩
        (some ⟨0, 1, [true]⟩)).haveBit =
      (⟨1, 2, fun _ => false, fun i => i == 0, false, fun _ => false,
        [⟨0, 1, [true]⟩], fun _ => 0, [], false, 2⟩ : DPS).haveBit ∧
     (isEndGame ⟨1, 2, fun _ => false, fun i => i == 0, false, fun _ => false,
        [⟨0, 1, [true]⟩], fun _ => 0, [], false, 2⟩ = false →
      (Piece.mk 0 1 [true]).getCompletedLength = 0 →
      ∀ q, q ∈ (cancelPiece ⟨1, 2, fun _ => false, fun i => i == 0, false,
          fun _ => false, [⟨0, 1, [true]⟩], fun _ => 0, [], false, 2⟩
          (some ⟨0, 1, [true]⟩)).usedPieces ↔
        q ∈ (⟨1, 2, fun _ => false, fun i => i == 0, false, fun _ => false,
          [⟨0, 1, [true]⟩], fun _ => 0, [], false, 2⟩ : DPS).usedPieces ∧
        q.index ≠ (Piece.mk 0 1 [true]).index) ∧
     (isEndGame ⟨1, 2, fun _ => false, fun i => i == 0, false, fun _ => false,
        [⟨0, 1, [true]⟩], fun _ => 0, [], false, 2⟩ = true →
      (cancelPiece ⟨1, 2, fun _ => false, fun i => i == 0, false,
        fun _ => false, [⟨0, 1, [true]⟩], fun _ => 0, [], false, 2⟩
        (some ⟨0, 1, [true]⟩)).usedPieces =
      (⟨1, 2, fun _ => false, fun i => i == 0, false, fun _ => false,
        [⟨0, 1, [true]⟩], fun _ => 0, [], false, 2⟩ : DPS).usedPieces) ∧
     ((Piece.mk 0 1 [true]).getCompletedLength ≠ 0 →
      (cancelPiece ⟨1, 2, fun _ => false, fun i => i == 0, false,
        fun _ => false, [⟨0, 1, [true]⟩], fun _ => 0, [], false, 2⟩
        (some ⟨0, 1, [true]⟩)).usedPieces =
      (⟨1, 2, fun _ => false, fun i => i == 0, false, fun _ => false,
        [⟨0, 1, [true]⟩], fun _ => 0, [], false, 2⟩ : DPS).usedPieces)) :=
  ⟨by decide,
   cancelPiece_spec
     ⟨1, 2, fun _ => false, fun i => i == 0, false, fun _ => false,
      [⟨0, 1, [true]⟩], fun _ => 0, [], false, 2⟩
     ⟨0, 1, [true]⟩ (by decide)⟩

/-- C3, counterexample: with the filter enabled on piece 0 only and piece 0
already have, `downloadFinished()` holds before piece 1 completes, yet
`completePiece` records the download stop time again — the source records
the stop time whenever `downloadFinished()` holds after the update, not only
when it becomes true as a result of this completion. -/
theorem completePiece_stop_time_without_transition :
    downloadFinished
      ⟨1, 2, fun i => i == 0, fun i => i == 1, true, fun i => i == 0,
       [⟨1, 1, [true]⟩], fun _ => 0, [], false, 0⟩ = true ∧
    (⟨1, 2, fun i => i == 0, fun i => i == 1, true, fun i => i == 0,
      [⟨1, 1, [true]⟩], fun _ => 0, [], false, 0⟩ : DPS).stopTimeReset =
      false ∧
    (completePiece
      ⟨1, 2, fun i => i == 0, fun i => i == 1, true, fun i => i == 0,
       [⟨1, 1, [true]⟩], fun _ => 0, [], false, 0⟩
      (some ⟨1, 1, [true]⟩)).stopTimeReset = true := by
  decide

/-- C3, amended: `completePiece(null)` is a no-op; `completePiece(p)` removes
the entry with `p`'s index from the in-flight deque, then — unless
`allDownloadFinished()` already holds, in which case nothing else changes —
sets `have[p.index]`, clears `in-use[p.index]`, adds one to the availability
count of `p.index` (all other indices untouched), and records the stop time
exactly when `downloadFinished()` holds after the update (even if it already
held before the call). -/
theorem completePiece_spec (s : DPS) (p : Piece)
    (hs : IndexSorted s.usedPieces) (hp : p.index < countBlock s) :
    completePiece s none = s ∧
    (∀ q, q ∈ (completePiece s (some p)).usedPieces ↔
        q ∈ s.usedPieces ∧ q.index ≠ p.index) ∧
    (allDownloadFinished s = true →
      (completePiece s (some p)).haveBit = s.haveBit ∧
      (completePiece s (some p)).useBit = s.useBit ∧
      (completePiece s (some p)).counts = s.counts ∧
      (completePiece s (some p)).stopTimeReset = s.stopTimeReset) ∧
    (allDownloadFinished s = false →
      hasPiece (completePiece s (some p)) p.index = true ∧
      isPieceUsed (completePiece s (some p)) p.index = false ∧
      (completePiece s (some p)).counts p.index = s.counts p.index + 1 ∧
      (∀ j, j ≠ p.index →
        (completePiece s (some p)).haveBit j = s.haveBit j ∧
        (completePiece s (some p)).useBit j = s.useBit j ∧
        (completePiece s (some p)).counts j = s.counts j) ∧
      (completePiece s (some p)).stopTimeReset =
        (downloadFinished (completePiece s (some p)) || s.stopTimeReset)) := by
  have hadf : allDownloadFinished (deleteUsedPiece s (some p)) =
      allDownloadFinished s := allDownloadFinished_deleteUsedPiece s _
  by_cases hall : allDownloadFinished s = true
  · have hres : completePiece s (some p) = deleteUsedPiece s (some p) := by
      simp [completePiece, hadf, hall]
    rw [hres]
    refine ⟨rfl, ?_, ?_, ?_⟩
    · intro q
      show q ∈ eraseSorted p.index s.usedPieces ↔ _
      exact mem_eraseSorted hs q
    · intro _
      exact ⟨haveBit_deleteUsedPiece s _, useBit_deleteUsedPiece s _,
        counts_deleteUsedPiece s _, stopTimeReset_deleteUsedPiece s _⟩
    · intro hc
      rw [hc] at hall
      cases hall
  · have hall' : allDownloadFinished s = false := by
      cases hx : allDownloadFinished s
      · rfl
      · exact absurd hx hall
    have hp1 : p.index < countBlock (deleteUsedPiece s (some p)) := by
      rw [countBlock_deleteUsedPiece]
      exact hp
    have hp2 : p.index <
        countBlock (setBit (deleteUsedPiece s (some p)) p.index) := by
      rw [countBlock_setBit]
      exact hp1
    have hres : completePiece s (some p) =
        (if downloadFinished (addPieceStats (unsetUseBit
            (setBit (deleteUsedPiece s (some p)) p.index) p.index) p.index)
         then { addPieceStats (unsetUseBit
            (setBit (deleteUsedPiece s (some p)) p.index) p.index) p.index
            with stopTimeReset := true }
         else addPieceStats (unsetUseBit
            (setBit (deleteUsedPiece s (some p)) p.index) p.index) p.index) := by
      simp only [completePiece, hadf, hall', Bool.false_eq_true, if_false]
    have husedAux : (addPieceStats (unsetUseBit
        (setBit (deleteUsedPiece s (some p)) p.index) p.index)
        p.index).usedPieces = eraseSorted p.index s.usedPieces := by
      rw [usedPieces_addPieceStats, usedPieces_unsetUseBit, usedPieces_setBit]
      rfl
    have hused : (completePiece s (some p)).usedPieces =
        eraseSorted p.index s.usedPieces := by
      rw [hres]
      split <;> exact husedAux
    have hhave : (completePiece s (some p)).haveBit =
        fun j => if j = p.index then true else s.haveBit j := by
      rw [hres]
      have : (addPieceStats (unsetUseBit
          (setBit (deleteUsedPiece s (some p)) p.index) p.index)
          p.index).haveBit =
          fun j => if j = p.index then true else s.haveBit j := by
        rw [haveBit_addPieceStats, haveBit_unsetUseBit,
          haveBit_setBit _ _ hp1]
        simp only [haveBit_deleteUsedPiece]
      split <;> exact this
    have huse : (completePiece s (some p)).useBit =
        fun j => if j = p.index then false else s.useBit j := by
      rw [hres]
      have : (addPieceStats (unsetUseBit
          (setBit (deleteUsedPiece s (some p)) p.index) p.index)
          p.index).useBit =
          fun j => if j = p.index then false else s.useBit j := by
        rw [useBit_addPieceStats, useBit_unsetUseBit _ _ hp2]
        simp only [useBit_setBit, useBit_deleteUsedPiece]
      split <;> exact this
    have hcounts : (completePiece s (some p)).counts =
        fun j => if j = p.index then s.counts j + 1 else s.counts j := by
      rw [hres]
      have : (addPieceStats (unsetUseBit
          (setBit (deleteUsedPiece s (some p)) p.index) p.index)
          p.index).counts =
          fun j => if j = p.index then s.counts j + 1 else s.counts j := by
        funext j
        show (if j = p.index then _ + 1 else _) = _
        simp only [counts_unsetUseBit, counts_setBit, counts_deleteUsedPiece]
      split <;> exact this
    have hcbAux : countBlock (addPieceStats (unsetUseBit
        (setBit (deleteUsedPiece s (some p)) p.index) p.index) p.index) =
        countBlock s := by
      rw [countBlock_addPieceStats, countBlock_unsetUseBit,
        countBlock_setBit, countBlock_deleteUsedPiece]
    have hcb : countBlock (completePiece s (some p)) = countBlock s := by
      rw [hres]
      split <;> exact hcbAux
    refine ⟨rfl, ?_, ?_, ?_⟩
    · intro q
      rw [hused]
      exact mem_eraseSorted hs q
    · intro hc
      rw [hc] at hall
      exact absurd rfl hall
    · intro _
      refine ⟨?_, ?_, ?_, ?_, ?_⟩
      · rw [hasPiece, isBitSet, hcb, hhave]
        simp [hp]
      · rw [isPieceUsed, isUseBitSet, hcb, huse]
        simp
      · rw [hcounts]
        simp
      · intro j hj
        rw [hhave, huse, hcounts]
        simp [hj]
      · have hdf : downloadFinished (completePiece s (some p)) =
            downloadFinished (addPieceStats (unsetUseBit
              (setBit (deleteUsedPiece s (some p)) p.index) p.index)
              p.index) := by
          rw [hres]
          split <;> rfl
        rw [hdf, hres]
        split
        · rename_i hcond
          rw [hcond]
          rfl
        · rename_i hcond
          have : downloadFinished (addPieceStats (unsetUseBit
              (setBit (deleteUsedPiece s (some p)) p.index) p.index)
              p.index) = false := by
            cases hx : downloadFinished (addPieceStats (unsetUseBit
                (setBit (deleteUsedPiece s (some p)) p.index) p.index)
                p.index)
            · rfl
            · exact absurd hx hcond
          rw [this]
          show (addPieceStats _ _).stopTimeReset = (false || s.stopTimeReset)
          rw [Bool.false_or, stopTimeReset_addPieceStats,
            stopTimeReset_unsetUseBit, stopTimeReset_setBit,
            stopTimeReset_deleteUsedPiece]

/-- C3, witness at a fresh two-piece state completing piece 0. -/
theorem completePiece_spec_witness :
    IndexSorted (freshDPS 1 2 0).usedPieces ∧
    (Piece.mk 0 1 [true]).index < countBlock (freshDPS 1 2 0) ∧
    (completePiece (freshDPS 1 2 0) none = freshDPS 1 2 0 ∧
     (∀ q, q ∈ (completePiece (freshDPS 1 2 0)
         (some ⟨0, 1, [true]⟩)).usedPieces ↔
       q ∈ (freshDPS 1 2 0).usedPieces ∧
         q.index ≠ (Piece.mk 0 1 [true]).index) ∧
     (allDownloadFinished (freshDPS 1 2 0) = true →
       (completePiece (freshDPS 1 2 0) (some ⟨0, 1, [true]⟩)).haveBit =
         (freshDPS 1 2 0).haveBit ∧
       (completePiece (freshDPS 1 2 0) (some ⟨0, 1, [true]⟩)).useBit =
         (freshDPS 1 2 0).useBit ∧
       (completePiece (freshDPS 1 2 0) (some ⟨0, 1, [true]⟩)).counts =
         (freshDPS 1 2 0).counts ∧
       (completePiece (freshDPS 1 2 0)
         (some ⟨0, 1, [true]⟩)).stopTimeReset =
         (freshDPS 1 2 0).stopTimeReset) ∧
     (allDownloadFinished (freshDPS 1 2 0) = false →
       hasPiece (completePiece (freshDPS 1 2 0) (some ⟨0, 1, [true]⟩))
         (Piece.mk 0 1 [true]).index = true ∧
       isPieceUsed (completePiece (freshDPS 1 2 0) (some ⟨0, 1, [true]⟩))
         (Piece.mk 0 1 [true]).index = false ∧
       (completePiece (freshDPS 1 2 0) (some ⟨0, 1, [true]⟩)).counts
         (Piece.mk 0 1 [true]).index =
         (freshDPS 1 2 0).counts (Piece.mk 0 1 [true]).index + 1 ∧
       (∀ j, j ≠ (Piece.mk 0 1 [true]).index →
         (completePiece (freshDPS 1 2 0) (some ⟨0, 1, [true]⟩)).haveBit j =
           (freshDPS 1 2 0).haveBit j ∧
         (completePiece (freshDPS 1 2 0) (some ⟨0, 1, [true]⟩)).useBit j =
           (freshDPS 1 2 0).useBit j ∧
         (completePiece (freshDPS 1 2 0) (some ⟨0, 1, [true]⟩)).counts j =
           (freshDPS 1 2 0).counts j) ∧
       (completePiece (freshDPS 1 2 0)
         (some ⟨0, 1, [true]⟩)).stopTimeReset =
         (downloadFinished (completePiece (freshDPS 1 2 0)
            (some ⟨0, 1, [true]⟩)) || (freshDPS 1 2 0).stopTimeReset))) :=
  ⟨by decide, by decide,
   completePiece_spec (freshDPS 1 2 0) ⟨0, 1, [true]⟩ (by decide) (by decide)⟩

/-- C8, counterexample: a single foreign advert entry registered exactly at
the collect instant is returned by `getAdvertisedPieceIndexes`, while the
claim's walk — stop at the first entry whose timestamp is ≤ `since` — would
return nothing. -/
theorem advert_walk_boundary_mismatch :
    getAdvertisedPieceIndexes
      ⟨1, 1, fun _ => false, fun _ => false, false, fun _ => false, [],
       fun _ => 0, [⟨2, 5, 10⟩], false, 0⟩ 1 10 = [5] ∧
    collectClaimSpec 1 10
      (⟨1, 1, fun _ => false, fun _ => false, false, fun _ => false, [],
        fun _ => 0, [⟨2, 5, 10⟩], false, 0⟩ : DPS).haves = [] := by
  decide

/-- C8, amended: the advert walk skips every entry owned by the caller and
stops at the first entry registered strictly before `since` (an entry with
timestamp equal to `since` is still returned); consequently collecting with
one's own id right after `advertisePiece` with that id returns exactly what
it returned before the advertisement. -/
theorem getAdvertisedPieceIndexes_spec (s : DPS) (myCuid since idx now : Nat) :
    getAdvertisedPieceIndexes s myCuid since =
      collectAmendedSpec myCuid since s.haves ∧
    getAdvertisedPieceIndexes (advertisePiece s myCuid idx now) myCuid since =
      getAdvertisedPieceIndexes s myCuid since := by
  refine ⟨collectHaves_eq_amended myCuid since s.haves, ?_⟩
  show collectHaves myCuid since (⟨myCuid, idx, now⟩ :: s.haves) = _
  rw [collectHaves, if_pos rfl]
  rfl

/-- C10: `getPiece` never mutates the storage state; for an in-range index it
returns the existing in-flight piece when one is registered, and otherwise a
fresh piece of the right length whose blocks are all complete exactly when
the piece is already have and all empty otherwise. -/
theorem getPiece_spec (s : DPS) (i : Nat) (h : i < countBlock s)
    (hs : IndexSorted s.usedPieces) :
    (getPiece s i).2 = s ∧
    (∀ q, q ∈ s.usedPieces → q.index = i → (getPiece s i).1 = some q) ∧
    ((∀ q ∈ s.usedPieces, q.index ≠ i) →
      ∃ p, (getPiece s i).1 = some p ∧ p.index = i ∧
        p.length = blockLength s i ∧
        ∀ b ∈ p.blocks, b = hasPiece s i) := by
  have hle : i ≤ getMaxIndex s := by
    rw [getMaxIndex]
    omega
  refine ⟨?_, ?_, ?_⟩
  · simp only [getPiece, if_pos hle]
    cases hf : findUsedPiece s i <;> simp [hf]
  · intro q hq hqi
    have hf : findUsedPiece s i = some q := lowerBoundFind_of_mem hs hq hqi
    simp only [getPiece, if_pos hle, hf]
  · intro hne
    have hf : findUsedPiece s i = none := by
      cases hfx : findUsedPiece s i with
      | none => rfl
      | some q =>
        rcases lowerBoundFind_eq_some hfx with ⟨hm, hqi⟩
        exact absurd hqi (hne q hm)
    by_cases hhave : hasPiece s i = true
    · refine ⟨(Piece.make i (blockLength s i)).setAllBlock, ?_, rfl, rfl, ?_⟩
      · simp only [getPiece, if_pos hle, hf, hhave, if_true]
      · intro b hb
        simp only [Piece.setAllBlock, Piece.make] at hb
        rcases List.mem_map.mp hb with ⟨a, _, hab⟩
        rw [← hab, hhave]
    · have hhave' : hasPiece s i = false := by
        cases hx : hasPiece s i
        · rfl
        · exact absurd hx hhave
      refine ⟨Piece.make i (blockLength s i), ?_, rfl, rfl, ?_⟩
      · simp only [getPiece, if_pos hle, hf, hhave', Bool.false_eq_true,
          if_false]
      · intro b hb
        simp only [Piece.make] at hb
        rw [List.eq_of_mem_replicate hb, hhave']

/-- C10, witness: a two-piece state with an in-flight piece at index 0,
queried at index 0. -/
theorem getPiece_spec_witness :
    0 < countBlock (freshDPS 1 2 0) ∧
    IndexSorted (freshDPS 1 2 0).usedPieces ∧
    ((getPiece (freshDPS 1 2 0) 0).2 = freshDPS 1 2 0 ∧
     (∀ q, q ∈ (freshDPS 1 2 0).usedPieces → q.index = 0 →
       (getPiece (freshDPS 1 2 0) 0).1 = some q) ∧
     ((∀ q ∈ (freshDPS 1 2 0).usedPieces, q.index ≠ 0) →
       ∃ p, (getPiece (freshDPS 1 2 0) 0).1 = some p ∧ p.index = 0 ∧
         p.length = blockLength (freshDPS 1 2 0) 0 ∧
         ∀ b ∈ p.blocks, b = hasPiece (freshDPS 1 2 0) 0)) :=
  ⟨by decide, by decide,
   getPiece_spec (freshDPS 1 2 0) 0 (by decide) (by decide)⟩

/-- C9, witness at a fresh one-piece state. -/
theorem markPiecesDone_zero_resets_witness :
    0 < (freshDPS 1 1 0).totalLength ∧
    ((∀ i, hasPiece (markPiecesDone (freshDPS 1 1 0) 0) i = false) ∧
     (markPiecesDone (freshDPS 1 1 0) 0).usedPieces = [] ∧
     markPiecesDoneGeneral (freshDPS 1 1 0) 0 = freshDPS 1 1 0) :=
  ⟨by decide, markPiecesDone_zero_resets (freshDPS 1 1 0) (by decide)⟩

end Aria2
